import Mathlib

/-!
Verification of the vnaiscan core: the secure tar extraction engine
(`internal/extractor/extractor.go`) and the scan orchestration / risk
aggregation engine (`internal/scanner/scanner.go`).

Paths are modelled as `List Char` (Go strings over the byte separator '/':
the program targets linux, where `os.PathSeparator` is '/').  The Go
standard library functions used by the source (`filepath.Clean`,
`filepath.Join`, `filepath.Dir`, `strings.TrimPrefix`, `strings.Contains`,
`strings.HasPrefix`) are embedded below with their documented lexical
semantics for the '/' separator.

The filesystem is modelled as a set (list) of existing object paths.  Each
archive entry gives rise to a list of filesystem events (the `os.MkdirAll`
and file-write calls the source performs for it); running the events over
a filesystem state yields the list of objects actually created.  External
write failures (disk errors, EISDIR, a read error while copying file
content) are modelled by an oracle `wf : FsEvent → Bool` saying which
event fails; a failing event aborts extraction, exactly as every
filesystem error in `SafeExtract`/`extractFile` is returned and aborts
the loop.
-/

/-- Split a list of characters at every '/' (the separator occurrences are
dropped; empty segments are kept, as in Go's lexical path processing). -/
def splitOnSlash : List Char → List (List Char)
  | [] => [[]]
  | c :: cs =>
    if c = '/' then [] :: splitOnSlash cs
    else
      match splitOnSlash cs with
      | [] => [[c]]
      | s :: rest => (c :: s) :: rest

/-- Join segments with '/' (inverse of `splitOnSlash` on '/'-free segments). -/
def joinSlash : List (List Char) → List Char
  | [] => []
  | [s] => s
  | s :: rest => s ++ '/' :: joinSlash rest

/-- One segment is syntactically harmless: nonempty, not ".", not "..",
and contains no separator. -/
def goodSeg (seg : List Char) : Bool :=
  seg ≠ [] && seg ≠ ['.'] && seg ≠ ['.', '.'] && !(decide ('/' ∈ seg))

/-- The segment-processing loop of Go's `filepath.Clean`: drop empty and
"." segments; a ".." segment pops the previous segment when one is
available, is dropped at the start of a rooted path, and is kept at the
start of a relative path.  `acc` is the (reversed) output stack. -/
def cleanSegsAux (rooted : Bool) (acc : List (List Char)) : List (List Char) → List (List Char)
  | [] => acc.reverse
  | seg :: rest =>
    if seg = [] ∨ seg = ['.'] then cleanSegsAux rooted acc rest
    else if seg = ['.', '.'] then
      match acc with
      | top :: acc' =>
        if top = ['.', '.'] then cleanSegsAux rooted (seg :: acc) rest
        else cleanSegsAux rooted acc' rest
      | [] =>
        if rooted then cleanSegsAux rooted [] rest
        else cleanSegsAux rooted [seg] rest
    else cleanSegsAux rooted (seg :: acc) rest

/-- Go `path/filepath.Clean` for separator '/': purely lexical shortest
equivalent path.  Returns "." for the empty path; a rooted result keeps
its leading '/'. -/
def goClean (s : List Char) : List Char :=
  if s = [] then ['.']
  else
    let rooted := s.head? = some '/'
    let segs := cleanSegsAux rooted [] (splitOnSlash s)
    let body := joinSlash segs
    if rooted then '/' :: body
    else if body = [] then ['.'] else body

/-- Go `strings.TrimPrefix`: remove at most one leading copy of `pre`. -/
def trimPrefix (s pre : List Char) : List Char :=
  if pre.isPrefixOf s then s.drop pre.length else s

/-- Go `path/filepath.Join` restricted to two elements, as used by the
source: empty elements are dropped, the rest are joined with '/' and the
result is cleaned; all-empty input yields the empty path. -/
def goJoin (a b : List Char) : List Char :=
  if a = [] ∧ b = [] then []
  else if a = [] then goClean b
  else if b = [] then goClean a
  else goClean (a ++ '/' :: b)

/-- Everything up to and including the last '/' of the path (the `dir`
part of Go's `filepath.Split`); empty when the path has no separator. -/
def dropAfterLastSlash (p : List Char) : List Char :=
  ((p.reverse.dropWhile (fun c => c ≠ '/'))).reverse

/-- Go `path/filepath.Dir`: the cleaned directory portion of the path. -/
def goDir (p : List Char) : List Char :=
  goClean (dropAfterLastSlash p)

/-- Go `strings.Contains`: `sub` occurs as a contiguous substring of `s`. -/
def goContains (s sub : List Char) : Bool :=
  (List.range (s.length + 1)).any (fun i => sub.isPrefixOf (s.drop i))

/-- The `clean` local of `sanitizePath`: the declared name cleaned, with
one leading "/" and then one leading "./" stripped — the cleaned
relative path of the entry. -/
def cleanRel (name : List Char) : List Char :=
  trimPrefix (trimPrefix (goClean name) ['/']) ['.', '/']

/-- `sanitizePath` from extractor.go: clean the declared name, strip one
leading "/" and one leading "./", reject when the result still contains
".." anywhere, join onto the destination root and reject unless the
joined path is the root itself or extends root-plus-separator.
`none` models the error return (the entry is skipped by `SafeExtract`). -/
def sanitizePath (name dstDir : List Char) : Option (List Char) :=
  let clean := cleanRel name
  if goContains clean ['.', '.'] then none
  else
    let fullPath := goJoin dstDir clean
    if ¬ ((dstDir ++ ['/']).isPrefixOf fullPath) ∧ fullPath ≠ dstDir then none
    else some fullPath

/-- Tar type flag bytes (archive/tar constants used by the source). -/
def tarTypeReg : Nat := 48

def tarTypeLink : Nat := 49

def tarTypeSymlink : Nat := 50

def tarTypeChar : Nat := 51

def tarTypeBlock : Nat := 52

def tarTypeDir : Nat := 53

def tarTypeFifo : Nat := 54

/-- One tar header together with the length of the data its body
delivers to the reader (`size`).  `mode` is the declared int64 mode. -/
structure Header where
  name : List Char
  typeflag : Nat
  mode : Int
  size : Nat
deriving DecidableEq

/-- A tar stream: the headers the reader yields in order, and whether the
stream ends in a read error (`truncated = true`, e.g. a corrupt or
truncated header) instead of a clean EOF. -/
structure TarStream where
  entries : List Header
  truncated : Bool

/-- A filesystem call performed by the extractor: `mkdirAll p` is
`os.MkdirAll(p, 0755)`; `fileWrite p size mode` is the
create/copy/chmod sequence of `extractFile` — `size` bytes end up in the
file and `mode` is the final permission set by `os.Chmod`. -/
inductive FsEvent
  | mkdirAll (path : List Char)
  | fileWrite (path : List Char) (size : Nat) (mode : Nat)
deriving DecidableEq

/-- A filesystem object recorded as created (or, for files, written). -/
inductive FsObj
  | dir (path : List Char)
  | file (path : List Char) (size : Nat) (mode : Nat)
deriving DecidableEq

/-- The path of a filesystem object. -/
def FsObj.path : FsObj → List Char
  | FsObj.dir p => p
  | FsObj.file p _ _ => p

/-- 10 GiB: the per-file copy cap of `extractFile`
(`const maxFileSize = 10 * 1024 * 1024 * 1024`). -/
def maxFileSize : Nat := 10 * 1024 * 1024 * 1024

/-- The filesystem events `SafeExtract` performs for one entry, in
source order: sanitize the path (on failure skip the entry), skip
symlink/hardlink/char/block/FIFO entries, create directory entries with
`MkdirAll`, and extract regular files (parent `MkdirAll`, then the
write: `min size cap` bytes, final mode `os.FileMode(mode) & 0755`).
Any other type flag falls through both checks and produces nothing. -/
def entryEvents (dst : List Char) (h : Header) : List FsEvent :=
  match sanitizePath h.name dst with
  | none => []
  | some cleanPath =>
    if h.typeflag = tarTypeSymlink ∨ h.typeflag = tarTypeLink ∨ h.typeflag = tarTypeChar ∨
        h.typeflag = tarTypeBlock ∨ h.typeflag = tarTypeFifo then []
    else if h.typeflag = tarTypeDir then [FsEvent.mkdirAll cleanPath]
    else if h.typeflag = tarTypeReg then
      [FsEvent.mkdirAll (goDir cleanPath),
        FsEvent.fileWrite cleanPath (min h.size maxFileSize)
          ((Int.toNat (h.mode % 4294967296)) &&& 0o755)]
    else []

/-- All filesystem events of a stream's entries, in order. -/
def entriesEvents (dst : List Char) (entries : List Header) : List FsEvent :=
  entries.flatMap (entryEvents dst)

/-- An entry that survives both per-entry checks of `SafeExtract`: its
declared path sanitizes successfully and its type is not one of the
always-skipped dangerous types. -/
def entryAllowed (dst : List Char) (h : Header) : Bool :=
  (sanitizePath h.name dst).isSome &&
    !(h.typeflag == tarTypeSymlink || h.typeflag == tarTypeLink || h.typeflag == tarTypeChar ||
      h.typeflag == tarTypeBlock || h.typeflag == tarTypeFifo)

/-- The string-level ancestors a `MkdirAll` call may have to create:
every proper prefix that ends just before a '/', with the root written
"/" rather than the empty prefix. -/
def strAncestors (p : List Char) : List (List Char) :=
  ((List.range p.length).filterMap fun i =>
    if 0 < i ∧ p[i]? = some '/' then some (p.take i) else none) ++
    (if p[0]? = some '/' then [['/']] else [])

/-- The set of paths `os.MkdirAll p` ensures exist: `p` and its
ancestors. -/
def mkdirClosure (p : List Char) : List (List Char) :=
  p :: strAncestors p

/-- Apply one filesystem event to a state, returning the new state and
the objects created by the event.  `MkdirAll` creates exactly the
missing members of its closure; a file write always (re)writes its
target. -/
def applyEvent (fs : List (List Char)) : FsEvent → List (List Char) × List FsObj
  | FsEvent.mkdirAll p =>
    let news := (mkdirClosure p).filter (fun a => ¬ fs.contains a)
    (news ++ fs, news.map FsObj.dir)
  | FsEvent.fileWrite p sz md => (p :: fs, [FsObj.file p sz md])

/-- Run a list of events over a filesystem state.  `wf` is the
write-failure oracle; the first failing event aborts the run (third
component `true`), exactly as any `MkdirAll`/`extractFile` error makes
`SafeExtract` return immediately. -/
def runEvents (wf : FsEvent → Bool) : List (List Char) → List FsEvent →
    List (List Char) × List FsObj × Bool
  | fs, [] => (fs, [], false)
  | fs, e :: rest =>
    let step := applyEvent fs e
    if wf e then (step.1, step.2, true)
    else
      let next := runEvents wf step.1 rest
      (next.1, step.2 ++ next.2.1, next.2.2)

/-- Why `SafeExtract` returned an error. -/
inductive ExtractErr
  | readErr
  | writeErr
deriving DecidableEq

/-- The outcome of `SafeExtract`: final filesystem, objects created,
and the returned value. -/
structure ExtractOutcome where
  fs : List (List Char)
  created : List FsObj
  res : Except ExtractErr Unit

/-- `SafeExtract` from extractor.go over a tar stream: process the
entries in order (each contributing its `entryEvents`), aborting with an
error on the first filesystem failure; after the last entry the loop
either hits EOF (success) or a header read error (fatal
"failed to read tar header").  `dstDir` is the already-absolute
destination root; `fs₀` the initial filesystem. -/
def SafeExtract (wf : FsEvent → Bool) (s : TarStream) (dstDir : List Char)
    (fs₀ : List (List Char)) : ExtractOutcome :=
  let run := runEvents wf fs₀ (entriesEvents dstDir s.entries)
  { fs := run.1
    created := run.2.1
    res :=
      if run.2.2 then Except.error ExtractErr.writeErr
      else if s.truncated then Except.error ExtractErr.readErr
      else Except.ok () }

/-- `makeReadableForScan` from scanner.go, acting on the recorded
objects: regular files gain the owner-read bit (u+r, 0400); directories
gain owner read+execute (u+rx, 0500) — directories are created by the
extractor with permission 0755, which already contains 0500, so only
the file permissions change. -/
def makeReadableForScan (objs : List FsObj) : List FsObj :=
  objs.map fun o =>
    match o with
    | FsObj.dir p => FsObj.dir p
    | FsObj.file p sz md => FsObj.file p sz (md ||| 0o400)

/-- `calculateGrade` from scanner.go. -/
def calculateGrade (score : Int) : String :=
  if score ≤ 10 then "A"
  else if score ≤ 30 then "B"
  else if score ≤ 60 then "C"
  else if score ≤ 100 then "D"
  else "F"

/-- The fields of the ScanResult written by `calculateScore`. -/
structure ScoreOutcome where
  total : Int
  grade : String
  status : String
  partialFlag : Bool
deriving DecidableEq

/-- `calculateScore` from scanner.go.  `tools` is the list of
ToolResult.Status strings of the enabled tools (the values of the
`results.Tools` map; each runner stores "ok", "failed" or "timeout").
The findings-based score is not implemented in the source (the TODO at
scanner.go:340): `score` is the constant 0. -/
def calculateScore (tools : List String) : ScoreOutcome :=
  let score : Int := 0
  let toolsOk := tools.countP (fun t => t = "ok")
  let part := tools.any (fun t => t = "failed" || t = "timeout")
  let enabledTools := tools.length
  let status :=
    if enabledTools > 0 ∧ toolsOk = 0 then "ERROR"
    else if score > 100 then "FAIL"
    else if score > 30 ∨ part then "WARN"
    else "PASS"
  { total := score, grade := calculateGrade score, status := status, partialFlag := part }

/-- `ExitCode` from scanner.go. -/
def ExitCode (status : String) : Int :=
  if status = "PASS" then 0
  else if status = "WARN" then 1
  else if status = "FAIL" then 2
  else if status = "ERROR" then 3
  else 1

/-- The shape of a clean rooted path: a leading '/' followed by
well-formed segments (no empty, "." or ".." segment, no separator
inside a segment).  Every output of `goClean` on rooted input has this
shape. -/
def RootedClean (p : List Char) : Prop :=
  ∃ segs, p = '/' :: joinSlash segs ∧ ∀ x ∈ segs, goodSeg x = true

/-- A path that cannot escape the destination root: the root itself or
an extension of root-plus-separator. -/
def SafePath (dst a : List Char) : Prop :=
  a = dst ∨ (dst ++ ['/']) <+: a

/-- A filesystem event that cannot create anything outside the root:
every path a `MkdirAll` may create is safe or already part of the
root's own ancestor closure, and a file write targets a safe path. -/
def EventSafe (dst : List Char) : FsEvent → Prop
  | FsEvent.mkdirAll p => ∀ a ∈ mkdirClosure p, SafePath dst a ∨ a ∈ mkdirClosure dst
  | FsEvent.fileWrite p _ _ => SafePath dst p

/-- Aggregate findings counts, as named by the specification's scoring
table (§4.4). -/
structure Findings where
  critical : Nat
  high : Nat
  medium : Nat
  low : Nat
  secrets : Nat
  behHigh : Nat
  behMed : Nat
  suspicious : Nat

/-- Modelled from the spec: the §4.4 scoring table — 10 per critical
vulnerability, 5 per high, 2 per medium, 1 per low, 20 per exposed
secret, 15 per high-risk behavioral capability, 7 per medium-risk
behavioral capability, 5 per suspicious/disguised file type.  The
source never computes this (scanner.go:340 leaves the score at 0). -/
def specScore (f : Findings) : Int :=
  10 * f.critical + 5 * f.high + 2 * f.medium + f.low + 20 * f.secrets +
    15 * f.behHigh + 7 * f.behMed + 5 * f.suspicious

/-- The outcome of `Scanner.Run`: the computed score record when the
pipeline reached aggregation, and the returned error if any. -/
structure RunOutcome where
  outcome : Option ScoreOutcome
  err : Option String
deriving DecidableEq

/-- `Scanner.Run` from scanner.go at the level the claims are stated:
`tempFails` models a failure to create the work/rootfs directories,
`pullFails` a failure of `pullAndExtract`, `reportFails` a failure of
`generateReport`; `tools` are the statuses the tool runners stored
(`g.Wait()`'s value is discarded, so tool failures never short-circuit).
The returned error is non-nil exactly on those three failures or when
the computed Status is "FAIL". -/
def Run (tempFails pullFails reportFails : Bool) (tools : List String) : RunOutcome :=
  if tempFails then { outcome := none, err := some "failed to create work directory" }
  else if pullFails then { outcome := none, err := some "failed to pull/extract image" }
  else
    let sc := calculateScore tools
    if reportFails then { outcome := some sc, err := some "failed to generate report" }
    else if sc.status = "FAIL" then
      { outcome := some sc, err := some "scan completed with FAIL status" }
    else { outcome := some sc, err := none }

example : goClean "/a/b/../c".data = "/a/c".data := by decide
example : goClean "a/../../b".data = "../b".data := by decide
example : goClean "".data = ".".data := by decide
example : goClean "/../x".data = "/x".data := by decide
example : sanitizePath "../etc/passwd".data "/tmp/root".data = none := by decide
example : sanitizePath "a/b".data "/tmp/root".data = some "/tmp/root/a/b".data := by decide
example : sanitizePath "/abs".data "/tmp/root".data = some "/tmp/root/abs".data := by decide
example : sanitizePath "/".data "/tmp/root".data = some "/tmp/root".data := by decide
example : goDir "/tmp/root/a/b".data = "/tmp/root/a".data := by decide

/-! ## Helper lemmas -/

/-- Zero tools counted "ok" is the same as no tool having status "ok". -/
theorem countP_ok_eq_zero (tools : List String) :
    (tools.countP (fun t => t = "ok") = 0) ↔ (∀ t ∈ tools, t ≠ "ok") := by
  rw [List.countP_eq_zero]
  simp

/-- Evaluated form of `calculateScore`: the score is the constant 0, the
grade is therefore "A", and the status collapses to ERROR / WARN / PASS. -/
theorem calculateScore_eq (tools : List String) :
    calculateScore tools =
      { total := 0
        grade := "A"
        status :=
          if tools.length > 0 ∧ tools.countP (fun t => t = "ok") = 0 then "ERROR"
          else if tools.any (fun t => t = "failed" || t = "timeout") then "WARN"
          else "PASS"
        partialFlag := tools.any (fun t => t = "failed" || t = "timeout") } := by
  simp [calculateScore, calculateGrade]

/-- The run aborts exactly when some event in the list fails. -/
theorem runEvents_aborts_iff (wf : FsEvent → Bool) :
    ∀ (evs : List FsEvent) (fs : List (List Char)),
      (runEvents wf fs evs).2.2 = evs.any wf
  | [], fs => rfl
  | e :: rest, fs => by
    simp only [runEvents, List.any_cons]
    by_cases hw : wf e
    · simp [hw]
    · simp only [hw, if_false, Bool.false_or]
      exact runEvents_aborts_iff wf rest (applyEvent fs e).1

/-- Dropping entries that produce no events leaves `entriesEvents`
unchanged. -/
theorem entriesEvents_filter (dst : List Char) (keep : Header → Bool)
    (entries : List Header)
    (hdrop : ∀ h ∈ entries, keep h = false → entryEvents dst h = []) :
    entriesEvents dst (entries.filter keep) = entriesEvents dst entries := by
  induction entries with
  | nil => rfl
  | cons h rest ih =>
    have ihr : entriesEvents dst (rest.filter keep) = entriesEvents dst rest :=
      ih (fun x hx hk => hdrop x (List.mem_cons_of_mem _ hx) hk)
    by_cases hk : keep h
    · simp only [List.filter_cons, hk, if_true, entriesEvents, List.flatMap_cons] at *
      rw [ihr]
    · have he : entryEvents dst h = [] :=
        hdrop h (List.mem_cons_self _ _) (Bool.eq_false_iff.mpr hk)
      simp only [List.filter_cons, hk, entriesEvents, List.flatMap_cons, he,
        List.nil_append, if_neg] at *
      · exact ihr

/-! ## Claims about the Risk Aggregator and the Orchestrator -/

/-- C2: the claim states that with all enabled tools `ok`, `Score.Total`
is the weighted sum of the findings (10/5/2/1 per vulnerability
severity, 20 per secret, 15/7 per behavioral tier, 5 per suspicious
file).  The source never computes this sum: `calculateScore` leaves the
score at the constant 0 (TODO at scanner.go:340), so for
Findings{critical=1, high=2} with every tool `ok` the code yields
Total=0 where the claim requires 20. -/
theorem claim2_score_stubbed_at_zero :
    (∀ tools : List String, (calculateScore tools).total = 0) ∧
      specScore
        { critical := 1, high := 2, medium := 0, low := 0, secrets := 0,
          behHigh := 0, behMed := 0, suspicious := 0 } = 20 ∧
      (calculateScore ["ok", "ok", "ok"]).total ≠ 20 := by
  refine ⟨fun tools => rfl, by decide, by decide⟩

/-- C3: for every completed scan the Status is ERROR when at least one
tool was enabled and none reached `ok`; otherwise FAIL when
Score.Total > 100; otherwise WARN when Score.Total > 30 or the Partial
flag is set; otherwise PASS. -/
theorem claim3_status_formula (tools : List String) :
    (calculateScore tools).status =
      if tools.length > 0 ∧ (∀ t ∈ tools, t ≠ "ok") then "ERROR"
      else if (calculateScore tools).total > 100 then "FAIL"
      else if (calculateScore tools).total > 30 ∨ (calculateScore tools).partialFlag then "WARN"
      else "PASS" := by
  rw [calculateScore_eq]
  simp only []
  by_cases h : tools.length > 0 ∧ (∀ t ∈ tools, t ≠ "ok")
  · rw [if_pos ⟨h.1, (countP_ok_eq_zero tools).mpr h.2⟩, if_pos h]
  · rw [if_neg, if_neg h]
    · norm_num
    · intro hc
      exact h ⟨hc.1, (countP_ok_eq_zero tools).mp hc.2⟩

/-- C7: the Partial flag is true exactly when some enabled tool ended
`failed` or `timeout`; and one `ok` tool with zero findings plus one
`timeout` tool gives Partial=true and Status=WARN at Score.Total=0. -/
theorem claim7_partial_iff_failed_or_timeout :
    (∀ tools : List String,
      ((calculateScore tools).partialFlag = true ↔
        ∃ t ∈ tools, t = "failed" ∨ t = "timeout")) ∧
      (calculateScore ["ok", "timeout"]).partialFlag = true ∧
      (calculateScore ["ok", "timeout"]).status = "WARN" ∧
      (calculateScore ["ok", "timeout"]).total = 0 := by
  refine ⟨fun tools => ?_, by decide, by decide, by decide⟩
  rw [calculateScore_eq]
  simp [List.any_eq_true]

/-- C6 counterexample: a scan in which every enabled tool failed (no
acquisition/extraction/report failure) computes Status=ERROR, yet `Run`
returns nil — it only returns an error for Status FAIL — contradicting
the claim that such a scan makes `Run` return an error. -/
theorem claim6_counterexample :
    (Run false false false ["failed", "failed", "failed"]).err = none ∧
      (Run false false false ["failed", "failed", "failed"]).outcome =
        some (calculateScore ["failed", "failed", "failed"]) ∧
      (calculateScore ["failed", "failed", "failed"]).status = "ERROR" := by
  refine ⟨by decide, by decide, by decide⟩

/-- C6 amended: `Run` returns a pipeline-level error exactly when
work-directory setup, image acquisition/extraction, or report
generation fails, or when the computed Status is FAIL.  A scan where
all enabled tools fail still completes: Status=ERROR is stored in the
result with `Run` returning nil, and ERROR is surfaced through the
exit-code mapping (3) instead. -/
theorem claim6_run_error_characterization (tempFails pullFails reportFails : Bool)
    (tools : List String) :
    ((Run tempFails pullFails reportFails tools).err = none ↔
      (tempFails = false ∧ pullFails = false ∧ reportFails = false ∧
        (calculateScore tools).status ≠ "FAIL")) ∧
      (Run false false false tools).outcome = some (calculateScore tools) ∧
      ((calculateScore tools).status = "ERROR" ↔
        tools ≠ [] ∧ ∀ t ∈ tools, t ≠ "ok") ∧
      ExitCode "ERROR" = 3 := by
  refine ⟨?_, ?_, ?_, by decide⟩
  · cases tempFails <;> cases pullFails <;> cases reportFails <;>
      simp [Run] <;>
      by_cases hf : (calculateScore tools).status = "FAIL" <;> simp [hf]
  · have hf : (calculateScore tools).status ≠ "FAIL" := by
      rw [calculateScore_eq]
      simp only []
      split_ifs <;> simp
    simp [Run, hf]
  · simp only [calculateScore_eq]
    split_ifs with h
    · simp only [true_iff]
      exact ⟨List.length_pos.mp h.1, (countP_ok_eq_zero tools).mp h.2⟩
    all_goals
      simp only [show ("WARN" : String) ≠ "ERROR" by decide,
        show ("PASS" : String) ≠ "ERROR" by decide, false_iff]
      intro hc
      exact h ⟨List.length_pos.mpr hc.1, (countP_ok_eq_zero tools).mpr hc.2⟩

/-! ## Claims about SafeExtract: entry types and failure semantics -/

/-- C4: a symlink, hardlink, character-device, block-device or FIFO
entry produces no filesystem event, and extraction behaves on any
stream exactly as if the entry were absent — subsequent entries are
processed and no error arises from it. -/
theorem claim4_dangerous_types_skipped (h : Header) (dst : List Char)
    (htype : h.typeflag = tarTypeSymlink ∨ h.typeflag = tarTypeLink ∨
      h.typeflag = tarTypeChar ∨ h.typeflag = tarTypeBlock ∨ h.typeflag = tarTypeFifo) :
    entryEvents dst h = [] ∧
      ∀ (wf : FsEvent → Bool) (rest : List Header) (truncated : Bool)
        (fs₀ : List (List Char)),
        SafeExtract wf ⟨h :: rest, truncated⟩ dst fs₀ =
          SafeExtract wf ⟨rest, truncated⟩ dst fs₀ := by
  have he : entryEvents dst h = [] := by
    unfold entryEvents
    cases sanitizePath h.name dst with
    | none => rfl
    | some p => simp [htype]
  refine ⟨he, fun wf rest truncated fs₀ => ?_⟩
  simp [SafeExtract, entriesEvents, List.flatMap_cons, he]

/-- C4 witness: a symlink entry inside a concrete two-entry stream. -/
theorem claim4_witness :
    entryEvents "/r".data ⟨"a".data, tarTypeSymlink, 511, 9⟩ = [] ∧
      SafeExtract (fun _ => false)
          ⟨[⟨"a".data, tarTypeSymlink, 511, 9⟩, ⟨"b".data, tarTypeReg, 420, 3⟩], false⟩
          "/r".data [] =
        SafeExtract (fun _ => false) ⟨[⟨"b".data, tarTypeReg, 420, 3⟩], false⟩ "/r".data [] :=
  ⟨(claim4_dangerous_types_skipped ⟨"a".data, tarTypeSymlink, 511, 9⟩ "/r".data
      (by decide)).1,
    (claim4_dangerous_types_skipped ⟨"a".data, tarTypeSymlink, 511, 9⟩ "/r".data
      (by decide)).2 (fun _ => false) [⟨"b".data, tarTypeReg, 420, 3⟩] false []⟩

/-- C10: an entry whose type flag is none of regular file, directory,
symlink, hardlink, char device, block device or FIFO (e.g. an
extended-header or unknown type) produces no filesystem event, no
error, and extraction behaves exactly as if the entry were absent. -/
theorem claim10_unknown_types_skipped (h : Header) (dst : List Char)
    (h1 : h.typeflag ≠ tarTypeReg) (h2 : h.typeflag ≠ tarTypeDir)
    (h3 : h.typeflag ≠ tarTypeSymlink) (h4 : h.typeflag ≠ tarTypeLink)
    (h5 : h.typeflag ≠ tarTypeChar) (h6 : h.typeflag ≠ tarTypeBlock)
    (h7 : h.typeflag ≠ tarTypeFifo) :
    entryEvents dst h = [] ∧
      ∀ (wf : FsEvent → Bool) (rest : List Header) (truncated : Bool)
        (fs₀ : List (List Char)),
        SafeExtract wf ⟨h :: rest, truncated⟩ dst fs₀ =
          SafeExtract wf ⟨rest, truncated⟩ dst fs₀ := by
  have he : entryEvents dst h = [] := by
    unfold entryEvents
    cases sanitizePath h.name dst with
    | none => rfl
    | some p => simp [h1, h2, h3, h4, h5, h6, h7]
  refine ⟨he, fun wf rest truncated fs₀ => ?_⟩
  simp [SafeExtract, entriesEvents, List.flatMap_cons, he]

/-- C10 witness: a PAX extended-header entry (type flag 'x' = 120)
inside a concrete stream. -/
theorem claim10_witness :
    entryEvents "/r".data ⟨"pax".data, 120, 420, 7⟩ = [] ∧
      SafeExtract (fun _ => false)
          ⟨[⟨"pax".data, 120, 420, 7⟩, ⟨"b".data, tarTypeReg, 420, 3⟩], false⟩
          "/r".data [] =
        SafeExtract (fun _ => false) ⟨[⟨"b".data, tarTypeReg, 420, 3⟩], false⟩ "/r".data [] :=
  ⟨(claim10_unknown_types_skipped ⟨"pax".data, 120, 420, 7⟩ "/r".data
      (by decide) (by decide) (by decide) (by decide) (by decide) (by decide) (by decide)).1,
    (claim10_unknown_types_skipped ⟨"pax".data, 120, 420, 7⟩ "/r".data
      (by decide) (by decide) (by decide) (by decide) (by decide) (by decide) (by decide)).2
      (fun _ => false) [⟨"b".data, tarTypeReg, 420, 3⟩] false []⟩

/-- C5: `SafeExtract` succeeds exactly when no attempted filesystem
operation fails and the stream ends in EOF rather than a header read
error — so it returns an error precisely on a corrupt/truncated stream
or a filesystem write failure.  Moreover, deleting every entry that is
rejected for path traversal or disallowed type changes nothing: such
entries are dropped and extraction continues. -/
theorem claim5_failure_semantics (wf : FsEvent → Bool) (s : TarStream)
    (dst : List Char) (fs₀ : List (List Char)) :
    ((SafeExtract wf s dst fs₀).res = Except.ok () ↔
      ((entriesEvents dst s.entries).any wf = false ∧ s.truncated = false)) ∧
      SafeExtract wf ⟨s.entries.filter (entryAllowed dst), s.truncated⟩ dst fs₀ =
        SafeExtract wf s dst fs₀ := by
  constructor
  · simp only [SafeExtract, runEvents_aborts_iff]
    by_cases ha : (entriesEvents dst s.entries).any wf <;>
      by_cases ht : s.truncated <;> simp [ha, ht]
  · have hfil := entriesEvents_filter dst (entryAllowed dst) s.entries ?_
    · simp only [SafeExtract]
      rw [hfil]
    · intro h _ hk
      rw [entryAllowed, Bool.and_eq_false_iff] at hk
      rcases hk with hk | hk
      · cases hs : sanitizePath h.name dst with
        | none => simp [entryEvents, hs]
        | some p => rw [hs] at hk; simp at hk
      · cases hs : sanitizePath h.name dst with
        | none => simp [entryEvents, hs]
        | some p =>
          have hd : h.typeflag = tarTypeSymlink ∨ h.typeflag = tarTypeLink ∨
              h.typeflag = tarTypeChar ∨ h.typeflag = tarTypeBlock ∨
              h.typeflag = tarTypeFifo := by
            simp only [Bool.not_eq_false', Bool.or_eq_true, beq_iff_eq] at hk
            tauto
          simp [entryEvents, hs, hd]

/-! ## Path machinery: splitting and joining -/

/-- `splitOnSlash` never returns the empty list of segments. -/
theorem splitOnSlash_ne_nil : ∀ l : List Char, splitOnSlash l ≠ []
  | [] => by simp [splitOnSlash]
  | c :: cs => by
    unfold splitOnSlash
    by_cases hc : c = '/'
    · simp [hc]
    · cases hs : splitOnSlash cs <;> simp [hc, hs]

/-- `joinSlash` over a cons with nonempty tail. -/
theorem joinSlash_cons (s : List Char) (rest : List (List Char)) (hne : rest ≠ []) :
    joinSlash (s :: rest) = s ++ '/' :: joinSlash rest := by
  cases rest with
  | nil => exact absurd rfl hne
  | cons t ts => rfl

/-- Joining the segments of a split gives back the original characters. -/
theorem joinSlash_splitOnSlash : ∀ l : List Char, joinSlash (splitOnSlash l) = l
  | [] => rfl
  | c :: cs => by
    unfold splitOnSlash
    by_cases hc : c = '/'
    · rw [if_pos hc, joinSlash_cons _ _ (splitOnSlash_ne_nil cs), joinSlash_splitOnSlash cs,
        List.nil_append, hc]
    · rw [if_neg hc]
      cases hs : splitOnSlash cs with
      | nil => exact absurd hs (splitOnSlash_ne_nil cs)
      | cons s rest =>
        have ih := joinSlash_splitOnSlash cs
        rw [hs] at ih
        cases rest with
        | nil => simpa [joinSlash] using congrArg (c :: ·) ih
        | cons t ts =>
          have ih' : s ++ '/' :: joinSlash (t :: ts) = cs := ih
          calc joinSlash ((c :: s) :: t :: ts)
              = (c :: s) ++ '/' :: joinSlash (t :: ts) := by
                rw [joinSlash_cons _ _ (by simp)]
            _ = c :: (s ++ '/' :: joinSlash (t :: ts)) := rfl
            _ = c :: cs := by rw [ih']

/-- Segments produced by `splitOnSlash` contain no separator. -/
theorem mem_splitOnSlash_no_slash : ∀ (l : List Char) (seg : List Char),
    seg ∈ splitOnSlash l → '/' ∉ seg
  | [], seg => by
    intro hm
    simp [splitOnSlash] at hm
    simp [hm]
  | c :: cs, seg => by
    intro hm
    unfold splitOnSlash at hm
    by_cases hc : c = '/'
    · rw [if_pos hc] at hm
      rcases List.mem_cons.mp hm with h | h
      · simp [h]
      · exact mem_splitOnSlash_no_slash cs seg h
    · rw [if_neg hc] at hm
      cases hs : splitOnSlash cs with
      | nil => exact absurd hs (splitOnSlash_ne_nil cs)
      | cons s rest =>
        rw [hs] at hm
        rcases List.mem_cons.mp hm with h | h
        · subst h
          intro hin
          rcases List.mem_cons.mp hin with h | h
          · exact hc h.symm
          · exact mem_splitOnSlash_no_slash cs s (hs ▸ List.mem_cons_self s rest) h
        · exact mem_splitOnSlash_no_slash cs seg (hs ▸ List.mem_cons_of_mem s h)

/-- Any segment of a joined list occurs at some offset of the join. -/
theorem mem_joinSlash_drop : ∀ (segs : List (List Char)) (seg : List Char),
    seg ∈ segs →
    ∃ i, i ≤ (joinSlash segs).length ∧ seg.isPrefixOf ((joinSlash segs).drop i) = true
  | [], seg => by intro hm; exact absurd hm (List.not_mem_nil seg)
  | s :: rest, seg => by
    intro hm
    rcases List.mem_cons.mp hm with h | h
    · subst h
      refine ⟨0, Nat.zero_le _, ?_⟩
      rw [List.drop_zero, List.isPrefixOf_iff_prefix]
      cases rest with
      | nil => exact List.prefix_refl seg
      | cons t ts => rw [joinSlash_cons _ _ (by simp)]; exact List.prefix_append _ _
    · obtain ⟨i, hi, hp⟩ := mem_joinSlash_drop rest seg h
      have hrest : rest ≠ [] := by rintro rfl; exact absurd h (List.not_mem_nil seg)
      refine ⟨s.length + 1 + i, ?_, ?_⟩
      · rw [joinSlash_cons _ _ hrest]
        simp only [List.length_append, List.length_cons]
        omega
      · rw [joinSlash_cons _ _ hrest, List.drop_append_eq_append_drop,
          List.drop_eq_nil_of_le (by omega), List.nil_append]
        have hidx : s.length + 1 + i - s.length = i + 1 := by omega
        rw [hidx, List.drop_succ_cons]
        exact hp

/-- A ".." segment of the cleaned relative path makes the substring
check of `sanitizePath` fire. -/
theorem goContains_of_mem_splitOnSlash (c seg : List Char) (hm : seg ∈ splitOnSlash c) :
    goContains c seg = true := by
  obtain ⟨i, hi, hp⟩ := mem_joinSlash_drop (splitOnSlash c) seg hm
  rw [joinSlash_splitOnSlash] at hi hp
  unfold goContains
  rw [List.any_eq_true]
  exact ⟨i, List.mem_range.mpr (Nat.lt_succ_of_le hi), hp⟩

/-! ## Path machinery: the clean loop -/

/-- Unpacked form of `goodSeg`. -/
theorem goodSeg_spec (x : List Char) :
    goodSeg x = true ↔ (x ≠ [] ∧ x ≠ ['.'] ∧ x ≠ ['.', '.'] ∧ '/' ∉ x) := by
  simp [goodSeg]
  tauto

/-- With a well-formed stack and separator-free input, every segment the
clean loop emits for a rooted path is well-formed. -/
theorem cleanSegsAux_good : ∀ (segs acc : List (List Char)),
    (∀ x ∈ acc, goodSeg x = true) → (∀ x ∈ segs, '/' ∉ x) →
    ∀ x ∈ cleanSegsAux true acc segs, goodSeg x = true
  | [], acc => by
    intro hacc _ x hx
    unfold cleanSegsAux at hx
    exact hacc x (List.mem_reverse.mp hx)
  | seg :: rest, acc => by
    intro hacc hsegs x hx
    have hrest : ∀ y ∈ rest, '/' ∉ y := fun y hy => hsegs y (List.mem_cons_of_mem _ hy)
    unfold cleanSegsAux at hx
    by_cases h1 : seg = [] ∨ seg = ['.']
    · rw [if_pos h1] at hx
      exact cleanSegsAux_good rest acc hacc hrest x hx
    · rw [if_neg h1] at hx
      by_cases h2 : seg = ['.', '.']
      · rw [if_pos h2] at hx
        cases acc with
        | nil =>
          replace hx : x ∈ cleanSegsAux true [] rest := hx
          exact cleanSegsAux_good rest []
            (fun y hy => absurd hy (List.not_mem_nil y)) hrest x hx
        | cons top acc' =>
          replace hx : x ∈ (if top = ['.', '.'] then cleanSegsAux true (seg :: top :: acc') rest
            else cleanSegsAux true acc' rest) := hx
          by_cases h3 : top = ['.', '.']
          · have := hacc top (List.mem_cons_self top acc')
            rw [h3] at this
            exact absurd this (by decide)
          · rw [if_neg h3] at hx
            exact cleanSegsAux_good rest acc'
              (fun y hy => hacc y (List.mem_cons_of_mem _ hy)) hrest x hx
      · rw [if_neg h2] at hx
        have hgood : goodSeg seg = true := by
          rw [goodSeg_spec]
          push_neg at h1
          exact ⟨h1.1, h1.2, h2, hsegs seg (List.mem_cons_self seg rest)⟩
        refine cleanSegsAux_good rest (seg :: acc) ?_ hrest x hx
        intro y hy
        rcases List.mem_cons.mp hy with h | h
        · exact h ▸ hgood
        · exact hacc y h

/-- `goClean` on nonempty rooted input: the leading '/' plus the cleaned
segments. -/
theorem goClean_eq_of_rooted (s : List Char) (hne : s ≠ []) (hroot : s.head? = some '/') :
    goClean s = '/' :: joinSlash (cleanSegsAux true [] (splitOnSlash s)) := by
  unfold goClean
  rw [if_neg hne]
  simp [hroot]

/-- The output of `goClean` on rooted input is a clean rooted path. -/
theorem rootedClean_goClean (s : List Char) (hroot : s.head? = some '/') :
    RootedClean (goClean s) := by
  have hne : s ≠ [] := by intro h; subst h; simp at hroot
  rw [goClean_eq_of_rooted s hne hroot]
  exact ⟨_, rfl, cleanSegsAux_good (splitOnSlash s) [] (by simp)
    (fun x hx => mem_splitOnSlash_no_slash s x hx)⟩

/-- A separator-free string splits into itself. -/
theorem splitOnSlash_no_slash_eq : ∀ s : List Char, '/' ∉ s → splitOnSlash s = [s]
  | [], _ => rfl
  | c :: cs, hs => by
    have hc : ¬ c = '/' := fun h => hs (h ▸ List.mem_cons_self c cs)
    have ih := splitOnSlash_no_slash_eq cs (fun h => hs (List.mem_cons_of_mem c h))
    unfold splitOnSlash
    rw [if_neg hc, ih]

/-- Splitting past a separator peels off the separator-free head. -/
theorem splitOnSlash_append_slash : ∀ (s t : List Char), '/' ∉ s →
    splitOnSlash (s ++ '/' :: t) = s :: splitOnSlash t
  | [], t, _ => by
    show splitOnSlash ('/' :: t) = [] :: splitOnSlash t
    simp [splitOnSlash]
  | c :: cs, t, hs => by
    have hc : ¬ c = '/' := fun h => hs (h ▸ List.mem_cons_self c cs)
    have ih := splitOnSlash_append_slash cs t (fun h => hs (List.mem_cons_of_mem c h))
    show splitOnSlash (c :: (cs ++ '/' :: t)) = (c :: cs) :: splitOnSlash t
    simp only [splitOnSlash]
    rw [if_neg hc, ih]

/-- Splitting after joining separator-free segments is the identity. -/
theorem splitOnSlash_joinSlash : ∀ segs : List (List Char), segs ≠ [] →
    (∀ x ∈ segs, '/' ∉ x) → splitOnSlash (joinSlash segs) = segs
  | [], hne, _ => absurd rfl hne
  | [s], _, hs => splitOnSlash_no_slash_eq s (hs s (List.mem_cons_self s []))
  | s :: t :: ts, _, hs => by
    rw [joinSlash_cons _ _ (by simp),
      splitOnSlash_append_slash s _ (hs s (List.mem_cons_self s (t :: ts))),
      splitOnSlash_joinSlash (t :: ts) (by simp) (fun x hx => hs x (List.mem_cons_of_mem s hx))]

/-- A trailing separator contributes one trailing empty segment. -/
theorem splitOnSlash_append_trailing : ∀ t : List Char,
    splitOnSlash (t ++ ['/']) = splitOnSlash t ++ [[]]
  | [] => rfl
  | c :: cs => by
    show splitOnSlash (c :: (cs ++ ['/'])) = splitOnSlash (c :: cs) ++ [[]]
    unfold splitOnSlash
    by_cases hc : c = '/'
    · rw [if_pos hc, if_pos hc, splitOnSlash_append_trailing cs]
      rfl
    · rw [if_neg hc, if_neg hc, splitOnSlash_append_trailing cs]
      cases hs : splitOnSlash cs with
      | nil => exact absurd hs (splitOnSlash_ne_nil cs)
      | cons s rest => rfl

/-- The clean loop is the identity on well-formed segments (empty
segments being dropped). -/
theorem cleanSegsAux_of_good : ∀ (segs acc : List (List Char)),
    (∀ x ∈ segs, x = [] ∨ goodSeg x = true) →
    cleanSegsAux true acc segs = acc.reverse ++ segs.filter (fun x => !x.isEmpty)
  | [], acc, _ => by simp [cleanSegsAux]
  | seg :: rest, acc, hg => by
    have hrest : ∀ x ∈ rest, x = [] ∨ goodSeg x = true :=
      fun x hx => hg x (List.mem_cons_of_mem _ hx)
    unfold cleanSegsAux
    rcases hg seg (List.mem_cons_self seg rest) with h | h
    · subst h
      rw [if_pos (Or.inl rfl), cleanSegsAux_of_good rest acc hrest]
      rfl
    · rw [goodSeg_spec] at h
      rw [if_neg (by tauto), if_neg h.2.2.1, cleanSegsAux_of_good rest (seg :: acc) hrest]
      have hne : seg.isEmpty = false := by
        cases seg with
        | nil => exact absurd rfl h.1
        | cons a as => rfl
      simp [List.filter_cons, hne]

/-- Re-cleaning a clean rooted path with one trailing separator strips
exactly that separator. -/
theorem goClean_clean_trailing (segs : List (List Char)) (hne : segs ≠ [])
    (hgood : ∀ x ∈ segs, goodSeg x = true) :
    goClean ('/' :: (joinSlash segs ++ ['/'])) = '/' :: joinSlash segs := by
  have hfree : ∀ x ∈ segs, '/' ∉ x :=
    fun x hx => ((goodSeg_spec x).mp (hgood x hx)).2.2.2
  rw [goClean_eq_of_rooted ('/' :: (joinSlash segs ++ ['/'])) (by simp) (by simp)]
  have hsplit : splitOnSlash ('/' :: (joinSlash segs ++ ['/'])) =
      [] :: (segs ++ [[]]) := by
    have h1 : splitOnSlash ('/' :: (joinSlash segs ++ ['/'])) =
        [] :: splitOnSlash (joinSlash segs ++ ['/']) := by
      simp [splitOnSlash]
    rw [h1, splitOnSlash_append_trailing, splitOnSlash_joinSlash segs hne hfree]
  rw [hsplit, cleanSegsAux_of_good ([] :: (segs ++ [[]])) [] ?_]
  · have hkeep : segs.filter (fun x => !x.isEmpty) = segs := by
      rw [List.filter_eq_self]
      intro x hx
      have := ((goodSeg_spec x).mp (hgood x hx)).1
      cases x with
      | nil => exact absurd rfl this
      | cons a as => rfl
    simp [List.filter_append, hkeep]
  · intro x hx
    rcases List.mem_cons.mp hx with h | h
    · exact Or.inl h
    · rcases List.mem_append.mp h with h | h
      · exact Or.inr (hgood x h)
      · simp at h
        exact Or.inl h

/-- Appending a final segment to a nonempty join inserts one separator. -/
theorem joinSlash_append_last : ∀ (init : List (List Char)) (lst : List Char), init ≠ [] →
    joinSlash (init ++ [lst]) = joinSlash init ++ '/' :: lst
  | [], _, hne => absurd rfl hne
  | [s], lst, _ => rfl
  | s :: t :: ts, lst, _ => by
    rw [List.cons_append, joinSlash_cons _ _ (by simp),
      joinSlash_cons _ _ (by simp), joinSlash_append_last (t :: ts) lst (by simp),
      List.append_assoc]
    rfl

/-- `dropWhile` skips over a block all of whose elements satisfy the
predicate. -/
theorem dropWhile_append_all (p : Char → Bool) : ∀ (a b : List Char),
    (∀ c ∈ a, p c = true) → (a ++ b).dropWhile p = b.dropWhile p
  | [], b, _ => rfl
  | c :: cs, b, h => by
    rw [List.cons_append, List.dropWhile_cons,
      if_pos (h c (List.mem_cons_self c cs))]
    exact dropWhile_append_all p cs b (fun x hx => h x (List.mem_cons_of_mem c hx))

/-- `goDir` on a clean rooted path drops the last segment. -/
theorem goDir_rooted (segs : List (List Char)) (hgood : ∀ x ∈ segs, goodSeg x = true) :
    goDir ('/' :: joinSlash segs) = '/' :: joinSlash segs.dropLast := by
  cases hsegs : segs.reverse with
  | nil =>
    have : segs = [] := by simpa using congrArg List.reverse hsegs
    subst this
    decide
  | cons lst initrev =>
    have hdecomp : segs = initrev.reverse ++ [lst] := by
      have := congrArg List.reverse hsegs
      simpa using this
    set init := initrev.reverse with hinit
    have hlst : goodSeg lst = true := hgood lst (by rw [hdecomp]; simp)
    have hlstfree : '/' ∉ lst := ((goodSeg_spec lst).mp hlst).2.2.2
    have hlstrev : ∀ c ∈ lst.reverse, (fun c => decide ¬ c = '/') c = true := by
      intro c hc
      simp only [decide_eq_true_eq]
      intro hcc
      exact hlstfree (hcc ▸ List.mem_reverse.mp hc)
    cases hinitcase : init with
    | nil =>
      rw [hdecomp, hinitcase]
      show goDir ('/' :: joinSlash [lst]) = '/' :: joinSlash []
      have hj : joinSlash [lst] = lst := rfl
      rw [hj]
      unfold goDir dropAfterLastSlash
      have hrev : ('/' :: lst).reverse = lst.reverse ++ ['/'] := by simp
      rw [hrev, dropWhile_append_all _ lst.reverse ['/'] hlstrev]
      show goClean (List.reverse (List.dropWhile _ ['/'])) = ['/']
      rw [List.dropWhile_cons]
      simp only [decide_not]
      norm_num
      decide
    | cons i0 irest =>
      have hinitne : init ≠ [] := by rw [hinitcase]; simp
      have hinitgood : ∀ x ∈ init, goodSeg x = true := by
        intro x hx
        exact hgood x (by rw [hdecomp]; exact List.mem_append_left _ hx)
      rw [hdecomp, List.dropLast_concat, joinSlash_append_last init lst hinitne]
      unfold goDir dropAfterLastSlash
      have hrev : ('/' :: (joinSlash init ++ '/' :: lst)).reverse =
          lst.reverse ++ '/' :: ('/' :: joinSlash init).reverse := by
        simp
      rw [hrev, dropWhile_append_all _ lst.reverse _ hlstrev]
      rw [List.dropWhile_cons]
      simp only [decide_not, decide_eq_true_eq]
      rw [if_neg (by simp)]
      have : ('/' :: ('/' :: joinSlash init).reverse).reverse =
          '/' :: (joinSlash init ++ ['/']) := by simp
      rw [this]
      exact goClean_clean_trailing init hinitne hinitgood

/-! ## Prefix and ancestor machinery -/

/-- Two prefixes of the same list are comparable; the shorter is a
prefix of the longer. -/
theorem prefix_of_common (a b c : List Char) (h1 : a <+: c) (h2 : b <+: c)
    (hl : a.length ≤ b.length) : a <+: b := by
  have e1 := List.prefix_iff_eq_take.mp h1
  have e2 := List.prefix_iff_eq_take.mp h2
  have : a = b.take a.length := by
    rw [e2, List.take_take, Nat.min_eq_left hl]
    exact e1
  rw [this]
  exact List.take_prefix _ _

/-- Equal-length prefixes of the same list are equal. -/
theorem prefix_eq_of_common (a b c : List Char) (h1 : a <+: c) (h2 : b <+: c)
    (hl : a.length = b.length) : a = b :=
  (prefix_of_common a b c h1 h2 hl.le).eq_of_length hl

/-- A list and any of its prefixes agree on indices inside the prefix. -/
theorem getElem?_agree (a b : List Char) (h : a <+: b) (i : Nat)
    (hi : i < a.length) : b[i]? = a[i]? := by
  obtain ⟨t, rfl⟩ := h
  rw [List.getElem?_append]
  simp [hi]

/-- Membership in `strAncestors`: a proper prefix ending just before a
'/', or the root "/" for a rooted path. -/
theorem mem_strAncestors (p a : List Char) :
    a ∈ strAncestors p ↔
      ((∃ i, 0 < i ∧ p[i]? = some '/' ∧ a = p.take i) ∨
        (a = ['/'] ∧ p[0]? = some '/')) := by
  unfold strAncestors
  rw [List.mem_append]
  constructor
  · rintro (h | h)
    · obtain ⟨i, _, hf⟩ := List.mem_filterMap.mp h
      left
      by_cases hc : 0 < i ∧ p[i]? = some '/'
      · rw [if_pos hc] at hf
        exact ⟨i, hc.1, hc.2, (Option.some_inj.mp hf).symm⟩
      · rw [if_neg hc] at hf
        exact absurd hf (by simp)
    · by_cases hc : p[0]? = some '/'
      · rw [if_pos hc] at h
        exact Or.inr ⟨List.mem_singleton.mp h, hc⟩
      · rw [if_neg hc] at h
        exact absurd h (List.not_mem_nil a)
  · rintro (⟨i, hpos, hsl, rfl⟩ | ⟨rfl, hsl⟩)
    · left
      rw [List.mem_filterMap]
      refine ⟨i, ?_, ?_⟩
      · rw [List.mem_range]
        exact (List.getElem?_eq_some.mp hsl).1
      · rw [if_pos ⟨hpos, hsl⟩]
    · right
      rw [if_pos hsl]
      exact List.mem_singleton.mpr rfl

/-- Every member of the closure is the path itself or one of its
string ancestors; packaged membership lemma. -/
theorem mem_mkdirClosure (p a : List Char) :
    a ∈ mkdirClosure p ↔ a = p ∨ a ∈ strAncestors p := by
  unfold mkdirClosure
  exact List.mem_cons

/-- The closure of a closure member is inside the original closure. -/
theorem mkdirClosure_trans (q b a : List Char) (hb : b ∈ mkdirClosure q)
    (ha : a ∈ mkdirClosure b) : a ∈ mkdirClosure q := by
  rw [mem_mkdirClosure] at hb ha ⊢
  rcases hb with rfl | hb
  · exact ha
  · rw [mem_strAncestors] at hb
    rcases hb with ⟨i, hpos, hsl, rfl⟩ | ⟨rfl, hsl⟩
    · -- b is the proper ancestor q.take i
      rcases ha with rfl | ha
      · exact Or.inr ((mem_strAncestors q _).mpr (Or.inl ⟨i, hpos, hsl, rfl⟩))
      · rw [mem_strAncestors] at ha
        right
        rw [mem_strAncestors]
        have hilen : i < q.length := (List.getElem?_eq_some.mp hsl).1
        rcases ha with ⟨j, hjpos, hjsl, rfl⟩ | ⟨rfl, hsl0⟩
        · have hjlt : j < i := by
            have := (List.getElem?_eq_some.mp hjsl).1
            simpa [Nat.min_eq_left hilen.le] using this
          left
          refine ⟨j, hjpos, ?_, ?_⟩
          · rw [← hjsl, List.getElem?_take, if_pos hjlt]
          · rw [List.take_take, Nat.min_eq_left hjlt.le]
        · right
          refine ⟨rfl, ?_⟩
          rw [← hsl0, List.getElem?_take, if_pos hpos]
    · -- b is the root "/"
      rcases ha with rfl | ha
      · exact Or.inr ((mem_strAncestors q _).mpr (Or.inr ⟨rfl, hsl⟩))
      · rw [mem_strAncestors] at ha
        rcases ha with ⟨j, hjpos, hjsl, rfl⟩ | ⟨rfl, _⟩
        · have : j < 1 := (List.getElem?_eq_some.mp hjsl).1
          omega
        · exact Or.inr ((mem_strAncestors q _).mpr (Or.inr ⟨rfl, hsl⟩))

/-- Trichotomy: a closure member of a guarded path is safe or already an
ancestor (or the whole) of the destination root. -/
theorem mkdirClosure_safe (dst p a : List Char) (hp : SafePath dst p)
    (ha : a ∈ mkdirClosure p) : SafePath dst a ∨ a ∈ mkdirClosure dst := by
  rw [mem_mkdirClosure] at ha
  rcases ha with rfl | ha
  · exact Or.inl hp
  · rw [mem_strAncestors] at ha
    rcases ha with ⟨i, hpos, hsl, rfl⟩ | ⟨rfl, hsl⟩
    · have hilen : i < p.length := (List.getElem?_eq_some.mp hsl).1
      have htp : p.take i <+: p := List.take_prefix i p
      have hlen : (p.take i).length = i := by
        simp [Nat.min_eq_left hilen.le]
      rcases hp with rfl | hp
      · right
        rw [mem_mkdirClosure, mem_strAncestors]
        exact Or.inr (Or.inl ⟨i, hpos, hsl, rfl⟩)
      · rcases Nat.lt_trichotomy i dst.length with hlt | heq | hgt
        · right
          rw [mem_mkdirClosure, mem_strAncestors]
          have hdp : dst <+: p := (List.prefix_append dst ['/']).trans hp
          refine Or.inr (Or.inl ⟨i, hpos, ?_, ?_⟩)
          · rw [← hsl]
            exact (getElem?_agree dst p hdp i (by omega)).symm
          · have htpd : dst.take i <+: p := List.IsPrefix.trans (List.take_prefix i dst) hdp
            refine prefix_eq_of_common _ _ p htp htpd ?_
            rw [hlen, List.length_take]
            exact (Nat.min_eq_left hlt.le).symm
        · left
          left
          have hdp : dst <+: p := (List.prefix_append dst ['/']).trans hp
          exact prefix_eq_of_common _ _ p htp hdp (by rw [hlen]; omega)
        · left
          right
          refine prefix_of_common _ _ p hp htp ?_
          rw [hlen]
          simp
          omega
    · rcases hp with rfl | hp
      · right
        rw [mem_mkdirClosure, mem_strAncestors]
        exact Or.inr (Or.inr ⟨rfl, hsl⟩)
      · cases dst with
        | nil =>
          left
          right
          simp
        | cons d0 drest =>
          right
          rw [mem_mkdirClosure, mem_strAncestors]
          refine Or.inr (Or.inr ⟨rfl, ?_⟩)
          have hdp : (d0 :: drest) <+: p := (List.prefix_append _ ['/']).trans hp
          have h0 : p[0]? = (d0 :: drest)[0]? :=
            getElem?_agree (d0 :: drest) p hdp 0 (by simp)
          rw [← h0]
          exact hsl

/-! ## Sanitization and event safety -/

/-- A successful sanitize returns the join of root and cleaned relative
path. -/
theorem sanitizePath_some_eq (name dst p : List Char)
    (hs : sanitizePath name dst = some p) : p = goJoin dst (cleanRel name) := by
  unfold sanitizePath at hs
  by_cases h1 : goContains (cleanRel name) ['.', '.']
  · rw [if_pos h1] at hs
    exact absurd hs (by simp)
  · rw [if_neg h1] at hs
    by_cases h2 : ¬ ((dst ++ ['/']).isPrefixOf (goJoin dst (cleanRel name))) ∧
        goJoin dst (cleanRel name) ≠ dst
    · rw [if_pos h2] at hs
      exact absurd hs (by simp)
    · rw [if_neg h2] at hs
      exact (Option.some_inj.mp hs).symm

/-- A successful sanitize only returns guarded paths: the root itself
or an extension of root-plus-separator. -/
theorem sanitizePath_safe (name dst p : List Char)
    (hs : sanitizePath name dst = some p) : SafePath dst p := by
  have hp := sanitizePath_some_eq name dst p hs
  unfold sanitizePath at hs
  by_cases h1 : goContains (cleanRel name) ['.', '.']
  · rw [if_pos h1] at hs
    exact absurd hs (by simp)
  · rw [if_neg h1] at hs
    by_cases hpre : (dst ++ ['/']).isPrefixOf (goJoin dst (cleanRel name))
    · right
      rw [hp]
      exact List.isPrefixOf_iff_prefix.mp hpre
    · by_cases heq : goJoin dst (cleanRel name) = dst
      · left
        rw [hp, heq]
      · rw [if_pos ⟨hpre, heq⟩] at hs
        exact absurd hs (by simp)

/-- On a rooted destination the joined path is clean and rooted. -/
theorem rootedClean_goJoin (dst c : List Char) (hroot : dst.head? = some '/') :
    RootedClean (goJoin dst c) := by
  have hne : dst ≠ [] := by intro h; subst h; simp at hroot
  unfold goJoin
  rw [if_neg (by tauto), if_neg hne]
  by_cases hc : c = []
  · rw [if_pos hc]
    exact rootedClean_goClean dst hroot
  · rw [if_neg hc]
    apply rootedClean_goClean
    cases dst with
    | nil => exact absurd rfl hne
    | cons d ds => simpa using hroot

/-- The parent directory computed by `extractFile` stays inside the
closure of its clean rooted path. -/
theorem goDir_mem_closure (p : List Char) (hrc : RootedClean p) :
    goDir p ∈ mkdirClosure p := by
  obtain ⟨segs, rfl, hgood⟩ := hrc
  rw [goDir_rooted segs hgood, mem_mkdirClosure]
  rcases List.eq_nil_or_concat segs with rfl | ⟨init, lst, frfl⟩
  · left
    rfl
  · subst frfl
    rw [List.concat_eq_append] at hgood ⊢
    rw [List.dropLast_concat]
    cases init with
    | nil =>
      right
      rw [mem_strAncestors]
      exact Or.inr ⟨rfl, by simp⟩
    | cons i0 irest =>
      right
      rw [mem_strAncestors]
      left
      have hjoin : joinSlash ((i0 :: irest) ++ [lst]) =
          joinSlash (i0 :: irest) ++ '/' :: lst :=
        joinSlash_append_last (i0 :: irest) lst (by simp)
      have hassoc : '/' :: (joinSlash (i0 :: irest) ++ '/' :: lst) =
          ('/' :: joinSlash (i0 :: irest)) ++ '/' :: lst := rfl
      refine ⟨('/' :: joinSlash (i0 :: irest)).length, by simp, ?_, ?_⟩
      · rw [hjoin, hassoc, List.getElem?_append_right (Nat.le_refl _)]
        simp
      · rw [hjoin, hassoc]
        exact (List.take_left _ _).symm

/-- Every event an entry generates is safe for a rooted destination. -/
theorem entryEvents_safe (dst : List Char) (hroot : dst.head? = some '/') (h : Header) :
    ∀ e ∈ entryEvents dst h, EventSafe dst e := by
  intro e he
  unfold entryEvents at he
  cases hs : sanitizePath h.name dst with
  | none =>
    rw [hs] at he
    exact absurd he (List.not_mem_nil e)
  | some p =>
    rw [hs] at he
    have hsafe : SafePath dst p := sanitizePath_safe h.name dst p hs
    have hrc : RootedClean p := by
      rw [sanitizePath_some_eq h.name dst p hs]
      exact rootedClean_goJoin dst (cleanRel h.name) hroot
    split_ifs at he with h1 h2 h3
    · exact absurd he (List.not_mem_nil e)
    · rw [List.mem_singleton] at he
      subst he
      intro a ha
      exact mkdirClosure_safe dst p a hsafe ha
    · rcases List.mem_cons.mp he with rfl | he2
      · intro a ha
        exact mkdirClosure_safe dst p a hsafe
          (mkdirClosure_trans p (goDir p) a (goDir_mem_closure p hrc) ha)
      · rw [List.mem_singleton] at he2
        subst he2
        exact hsafe
    · exact absurd he (List.not_mem_nil e)

/-- Filesystem states only grow under events. -/
theorem applyEvent_mono (fs : List (List Char)) (e : FsEvent) (a : List Char)
    (ha : a ∈ fs) : a ∈ (applyEvent fs e).1 := by
  cases e with
  | mkdirAll p => exact List.mem_append_right _ ha
  | fileWrite p sz md => exact List.mem_cons_of_mem _ ha

/-- Objects created by one safe event starting from a filesystem that
already holds the root closure are safe. -/
theorem applyEvent_created_safe (dst : List Char) (fs : List (List Char)) (e : FsEvent)
    (hfs : ∀ a ∈ mkdirClosure dst, a ∈ fs) (hev : EventSafe dst e) :
    ∀ o ∈ (applyEvent fs e).2, SafePath dst (FsObj.path o) := by
  intro o ho
  cases e with
  | mkdirAll p =>
    simp only [applyEvent] at ho
    obtain ⟨a, ha, rfl⟩ := List.mem_map.mp ho
    rw [List.mem_filter] at ha
    have hcl : a ∈ mkdirClosure p := ha.1
    have hnotfs : a ∉ fs := by
      have h2 := ha.2
      simp only [decide_eq_true_eq] at h2
      intro hmem
      exact h2 (List.elem_iff.mpr hmem)
    rcases hev a hcl with hsafe | hdst
    · exact hsafe
    · exact absurd (hfs a hdst) hnotfs
  | fileWrite p sz md =>
    simp only [applyEvent, List.mem_singleton] at ho
    subst ho
    exact hev

/-- Every object created during a run of safe events is safe. -/
theorem runEvents_created_safe (dst : List Char) (wf : FsEvent → Bool) :
    ∀ (evs : List FsEvent) (fs : List (List Char)),
      (∀ a ∈ mkdirClosure dst, a ∈ fs) → (∀ e ∈ evs, EventSafe dst e) →
      ∀ o ∈ (runEvents wf fs evs).2.1, SafePath dst (FsObj.path o)
  | [], fs, _, _ => by
    intro o ho
    exact absurd ho (List.not_mem_nil o)
  | e :: rest, fs, hfs, hevs => by
    intro o ho
    have hstep := applyEvent_created_safe dst fs e hfs (hevs e (List.mem_cons_self e rest))
    unfold runEvents at ho
    by_cases hw : wf e
    · rw [if_pos hw] at ho
      exact hstep o ho
    · rw [if_neg hw] at ho
      rcases List.mem_append.mp ho with hin | hin
      · exact hstep o hin
      · exact runEvents_created_safe dst wf rest (applyEvent fs e).1
          (fun a ha => applyEvent_mono fs e a (hfs a ha))
          (fun x hx => hevs x (List.mem_cons_of_mem e hx)) o hin

/-! ## Claim: no escape from the destination root -/

/-- C1: starting from any filesystem that already holds the destination
root and its ancestors, every filesystem object `SafeExtract` creates is
the destination root itself or a path extending root-plus-separator;
and an entry whose cleaned relative path still contains a ".." segment,
or whose join with the root fails the root / root-plus-separator check,
is rejected and generates no filesystem operation at all. -/
theorem claim1_no_escape (wf : FsEvent → Bool) (s : TarStream) (dst : List Char)
    (fs₀ : List (List Char)) (hroot : dst.head? = some '/')
    (hfs : ∀ a ∈ mkdirClosure dst, a ∈ fs₀) :
    (∀ o ∈ (SafeExtract wf s dst fs₀).created,
        FsObj.path o = dst ∨ (dst ++ ['/']) <+: FsObj.path o) ∧
      (∀ h ∈ s.entries,
        (['.', '.'] ∈ splitOnSlash (cleanRel h.name) ∨
          (goJoin dst (cleanRel h.name) ≠ dst ∧
            ¬ (dst ++ ['/']) <+: goJoin dst (cleanRel h.name))) →
        entryEvents dst h = []) := by
  constructor
  · intro o ho
    simp only [SafeExtract] at ho
    refine runEvents_created_safe dst wf (entriesEvents dst s.entries) fs₀ hfs ?_ o ho
    intro e he
    obtain ⟨h, _, he2⟩ := List.mem_flatMap.mp he
    exact entryEvents_safe dst hroot h e he2
  · intro h _ hrej
    rcases hrej with hdd | ⟨hne, hnp⟩
    · have hc := goContains_of_mem_splitOnSlash (cleanRel h.name) _ hdd
      have hnone : sanitizePath h.name dst = none := by
        unfold sanitizePath
        rw [if_pos hc]
      simp [entryEvents, hnone]
    · have hnone : sanitizePath h.name dst = none := by
        unfold sanitizePath
        by_cases hcc : goContains (cleanRel h.name) ['.', '.']
        · rw [if_pos hcc]
        · rw [if_neg hcc, if_pos ?_]
          constructor
          · intro hpref
            exact hnp (List.isPrefixOf_iff_prefix.mp hpref)
          · exact hne
      simp [entryEvents, hnone]

/-- C1 witness: a concrete archive holding a benign file, a benign
directory, a traversal attempt "../evil" and an absolute name that
cleans into range; the traversal entry generates nothing and the
created objects all stay under the root "/r". -/
theorem claim1_no_escape_witness :
    (∀ o ∈ (SafeExtract (fun _ => false)
        ⟨[⟨"a/b.txt".data, tarTypeReg, 420, 3⟩,
          ⟨"d".data, tarTypeDir, 493, 0⟩,
          ⟨"../evil".data, tarTypeReg, 420, 3⟩], false⟩
        "/r".data ["/r".data, "/".data]).created,
        FsObj.path o = "/r".data ∨ ("/r".data ++ ['/']) <+: FsObj.path o) ∧
      entryEvents "/r".data ⟨"../evil".data, tarTypeReg, 420, 3⟩ = [] := by
  have hmain := claim1_no_escape (fun _ => false)
    ⟨[⟨"a/b.txt".data, tarTypeReg, 420, 3⟩,
      ⟨"d".data, tarTypeDir, 493, 0⟩,
      ⟨"../evil".data, tarTypeReg, 420, 3⟩], false⟩
    "/r".data ["/r".data, "/".data] (by decide) (by decide)
  exact ⟨hmain.1, hmain.2 ⟨"../evil".data, tarTypeReg, 420, 3⟩ (by decide) (by decide)⟩

/-! ## Correspondence between entries, events and created objects -/

/-- A recorded file object always stems from a file-write event. -/
theorem file_mem_runEvents (wf : FsEvent → Bool) :
    ∀ (evs : List FsEvent) (fs : List (List Char)) (p : List Char) (sz md : Nat),
      FsObj.file p sz md ∈ (runEvents wf fs evs).2.1 →
      FsEvent.fileWrite p sz md ∈ evs
  | [], _, p, sz, md => by
    intro hmem
    exact absurd hmem (List.not_mem_nil _)
  | e :: rest, fs, p, sz, md => by
    intro hmem
    have hstep : FsObj.file p sz md ∈ (applyEvent fs e).2 →
        FsEvent.fileWrite p sz md = e := by
      intro h2
      cases e with
      | mkdirAll q =>
        simp only [applyEvent] at h2
        obtain ⟨a, _, ha⟩ := List.mem_map.mp h2
        exact absurd ha (by simp)
      | fileWrite q s2 m2 =>
        simp only [applyEvent, List.mem_singleton, FsObj.file.injEq] at h2
        rw [h2.1, h2.2.1, h2.2.2]
    unfold runEvents at hmem
    by_cases hw : wf e
    · rw [if_pos hw] at hmem
      exact (hstep hmem) ▸ List.mem_cons_self _ _
    · rw [if_neg hw] at hmem
      rcases List.mem_append.mp hmem with hin | hin
      · exact (hstep hin) ▸ List.mem_cons_self _ _
      · exact List.mem_cons_of_mem e
          (file_mem_runEvents wf rest (applyEvent fs e).1 p sz md hin)

/-- When no event fails, every file-write event leaves its file object
in the created list. -/
theorem fileWrite_mem_created (wf : FsEvent → Bool) :
    ∀ (evs : List FsEvent) (fs : List (List Char)) (p : List Char) (sz md : Nat),
      FsEvent.fileWrite p sz md ∈ evs → evs.any wf = false →
      FsObj.file p sz md ∈ (runEvents wf fs evs).2.1
  | [], _, p, sz, md => by
    intro hmem _
    exact absurd hmem (List.not_mem_nil _)
  | e :: rest, fs, p, sz, md => by
    intro hmem hany
    rw [List.any_cons, Bool.or_eq_false_iff] at hany
    unfold runEvents
    rw [if_neg (by rw [hany.1]; simp)]
    rcases List.mem_cons.mp hmem with rfl | hin
    · exact List.mem_append_left _ (by simp [applyEvent])
    · exact List.mem_append_right _
        (fileWrite_mem_created wf rest (applyEvent fs e).1 p sz md hin hany.2)

/-- The filesystem state only grows along a run. -/
theorem runEvents_fs_mono (wf : FsEvent → Bool) :
    ∀ (evs : List FsEvent) (fs : List (List Char)) (a : List Char),
      a ∈ fs → a ∈ (runEvents wf fs evs).1
  | [], _, a, ha => ha
  | e :: rest, fs, a, ha => by
    unfold runEvents
    by_cases hw : wf e
    · rw [if_pos hw]
      exact applyEvent_mono fs e a ha
    · rw [if_neg hw]
      exact runEvents_fs_mono wf rest (applyEvent fs e).1 a (applyEvent_mono fs e a ha)

/-- A `MkdirAll` target exists in the state right after its event. -/
theorem applyEvent_mkdir_mem (fs : List (List Char)) (p : List Char) :
    p ∈ (applyEvent fs (FsEvent.mkdirAll p)).1 := by
  simp only [applyEvent]
  by_cases hin : p ∈ fs
  · exact List.mem_append_right _ hin
  · refine List.mem_append_left _ ?_
    rw [List.mem_filter]
    refine ⟨(mem_mkdirClosure p p).mpr (Or.inl rfl), ?_⟩
    simp only [decide_eq_true_eq]
    intro hc
    exact hin (List.elem_iff.mp hc)

/-- When no event fails, every `MkdirAll` target exists in the final
filesystem. -/
theorem mkdir_target_in_fs (wf : FsEvent → Bool) :
    ∀ (evs : List FsEvent) (fs : List (List Char)) (p : List Char),
      FsEvent.mkdirAll p ∈ evs → evs.any wf = false →
      p ∈ (runEvents wf fs evs).1
  | [], _, p, hmem, _ => absurd hmem (List.not_mem_nil _)
  | e :: rest, fs, p, hmem, hany => by
    rw [List.any_cons, Bool.or_eq_false_iff] at hany
    unfold runEvents
    rw [if_neg (by rw [hany.1]; simp)]
    rcases List.mem_cons.mp hmem with rfl | hin
    · exact runEvents_fs_mono wf rest _ p (applyEvent_mkdir_mem fs p)
    · exact mkdir_target_in_fs wf rest (applyEvent fs e).1 p hin hany.2

/-- Characterization of the file-write event an entry generates. -/
theorem fileWrite_mem_entryEvents (dst : List Char) (h : Header) (p : List Char)
    (sz md : Nat) :
    FsEvent.fileWrite p sz md ∈ entryEvents dst h ↔
      (sanitizePath h.name dst = some p ∧ h.typeflag = tarTypeReg ∧
        sz = min h.size maxFileSize ∧
        md = (Int.toNat (h.mode % 4294967296)) &&& 0o755) := by
  unfold entryEvents
  cases hs : sanitizePath h.name dst with
  | none => simp
  | some q =>
    split_ifs with h1 h2 h3
    · constructor
      · intro hx
        exact absurd hx (List.not_mem_nil _)
      · rintro ⟨-, hreg, -, -⟩
        rcases h1 with h | h | h | h | h <;> rw [hreg] at h <;> exact absurd h (by decide)
    · constructor
      · intro hx
        rw [List.mem_singleton] at hx
        exact absurd hx (by simp)
      · rintro ⟨-, hreg, -, -⟩
        rw [hreg] at h2
        exact absurd h2 (by decide)
    · constructor
      · intro hx
        rcases List.mem_cons.mp hx with hx | hx
        · exact absurd hx (by simp)
        · rw [List.mem_singleton] at hx
          simp only [FsEvent.fileWrite.injEq] at hx
          exact ⟨by rw [hx.1], h3, hx.2.1, hx.2.2⟩
      · rintro ⟨hq, -, rfl, rfl⟩
        have : q = p := Option.some_inj.mp hq
        subst this
        exact List.mem_cons_of_mem _ (List.mem_singleton.mpr rfl)
    · constructor
      · intro hx
        exact absurd hx (List.not_mem_nil _)
      · rintro ⟨-, hreg, -, -⟩
        exact absurd hreg h3

/-- A directory entry generates exactly its `MkdirAll`. -/
theorem mkdirAll_of_dir_entry (dst : List Char) (h : Header) (p : List Char)
    (hs : sanitizePath h.name dst = some p) (ht : h.typeflag = tarTypeDir) :
    FsEvent.mkdirAll p ∈ entryEvents dst h := by
  simp only [entryEvents, hs]
  rw [if_neg (by rw [ht]; decide), if_pos ht]
  exact List.mem_singleton.mpr rfl

/-! ## Claims: size cap and round-trip -/

/-- C9: the byte count recorded for any extracted regular file is
`min (entry size) maxFileSize` for some generating regular entry — so
never more than the fixed 10 GiB cap, and exactly the cap when the
entry delivers more — and a stream with oversized entries still
extracts to completion without error when no filesystem operation
fails and the stream ends in EOF. -/
theorem claim9_size_cap (wf : FsEvent → Bool) (s : TarStream) (dst : List Char)
    (fs₀ : List (List Char)) :
    (∀ p sz md, FsObj.file p sz md ∈ (SafeExtract wf s dst fs₀).created →
      sz ≤ maxFileSize ∧
        ∃ h ∈ s.entries, h.typeflag = tarTypeReg ∧ sz = min h.size maxFileSize) ∧
      (SafeExtract (fun _ => false) ⟨s.entries, false⟩ dst fs₀).res = Except.ok () := by
  constructor
  · intro p sz md hmem
    simp only [SafeExtract] at hmem
    have hev := file_mem_runEvents wf _ _ p sz md hmem
    obtain ⟨h, hh, he⟩ := List.mem_flatMap.mp hev
    obtain ⟨-, hreg, hsz, -⟩ := (fileWrite_mem_entryEvents dst h p sz md).mp he
    exact ⟨by rw [hsz]; exact Nat.min_le_right _ _, h, hh, hreg, hsz⟩
  · simp only [SafeExtract, runEvents_aborts_iff]
    simp

/-- C9 witness: one regular entry delivering five bytes beyond the cap
is truncated to exactly the cap and the run ends without error. -/
theorem claim9_size_cap_witness :
    (maxFileSize ≤ maxFileSize ∧
      ∃ h ∈ [(⟨"big".data, tarTypeReg, 420, maxFileSize + 5⟩ : Header)],
        h.typeflag = tarTypeReg ∧ maxFileSize = min h.size maxFileSize) ∧
      (SafeExtract (fun _ => false)
        ⟨[(⟨"big".data, tarTypeReg, 420, maxFileSize + 5⟩ : Header)], false⟩
        "/r".data []).res = Except.ok () :=
  ⟨(claim9_size_cap (fun _ => false)
      ⟨[⟨"big".data, tarTypeReg, 420, maxFileSize + 5⟩], false⟩ "/r".data []).1
      "/r/big".data maxFileSize 420 (by decide),
    (claim9_size_cap (fun _ => false)
      ⟨[⟨"big".data, tarTypeReg, 420, maxFileSize + 5⟩], false⟩ "/r".data []).2⟩

/-- C8: for an archive of only regular files and directories whose
paths all sanitize (no traversal attempts), with no filesystem failure
and a clean EOF: extraction succeeds; every directory entry's sanitized
path exists in the final filesystem; every regular entry leaves a file
object at its sanitized path whose byte length equals the declared
length unless truncated by the cap, with final permission bits after
the readability pass equal to (declared mode ∩ 0755) ∪ 0400; and
conversely every recorded file object arises from such an entry, its
permission bits a subset of (declared mode ∩ 0755) ∪ 0400. -/
theorem claim8_roundtrip (s : TarStream) (dst : List Char) (fs₀ : List (List Char))
    (htypes : ∀ h ∈ s.entries, h.typeflag = tarTypeReg ∨ h.typeflag = tarTypeDir)
    (hsan : ∀ h ∈ s.entries, (sanitizePath h.name dst).isSome = true)
    (htrunc : s.truncated = false) :
    ((SafeExtract (fun _ => false) s dst fs₀).res = Except.ok ()) ∧
      (∀ h ∈ s.entries, h.typeflag = tarTypeDir → ∀ p, sanitizePath h.name dst = some p →
        p ∈ (SafeExtract (fun _ => false) s dst fs₀).fs) ∧
      (∀ h ∈ s.entries, h.typeflag = tarTypeReg → ∀ p, sanitizePath h.name dst = some p →
        FsObj.file p (if h.size ≤ maxFileSize then h.size else maxFileSize)
            ((((h.mode % 4294967296).toNat) &&& 0o755) ||| 0o400) ∈
          makeReadableForScan (SafeExtract (fun _ => false) s dst fs₀).created) ∧
      (∀ p sz md, FsObj.file p sz md ∈
          makeReadableForScan (SafeExtract (fun _ => false) s dst fs₀).created →
        ∃ h ∈ s.entries, h.typeflag = tarTypeReg ∧ sanitizePath h.name dst = some p ∧
          sz = min h.size maxFileSize ∧
          md &&& ((((h.mode % 4294967296).toNat) &&& 0o755) ||| 0o400) = md) := by
  have hany : (entriesEvents dst s.entries).any (fun _ => false) = false := by
    simp
  refine ⟨?_, ?_, ?_, ?_⟩
  · simp only [SafeExtract, runEvents_aborts_iff, hany, htrunc]
    simp
  · intro h hh htd p hp
    simp only [SafeExtract]
    refine mkdir_target_in_fs (fun _ => false) _ fs₀ p ?_ hany
    exact List.mem_flatMap.mpr ⟨h, hh, mkdirAll_of_dir_entry dst h p hp htd⟩
  · intro h hh htr p hp
    have hev : FsEvent.fileWrite p (min h.size maxFileSize)
        (((h.mode % 4294967296).toNat) &&& 0o755) ∈ entryEvents dst h :=
      (fileWrite_mem_entryEvents dst h p _ _).mpr ⟨hp, htr, rfl, rfl⟩
    have hobj : FsObj.file p (min h.size maxFileSize)
        (((h.mode % 4294967296).toNat) &&& 0o755) ∈
        (SafeExtract (fun _ => false) s dst fs₀).created := by
      simp only [SafeExtract]
      exact fileWrite_mem_created (fun _ => false) _ fs₀ p _ _
        (List.mem_flatMap.mpr ⟨h, hh, hev⟩) hany
    unfold makeReadableForScan
    rw [← Nat.min_def]
    exact List.mem_map.mpr ⟨_, hobj, rfl⟩
  · intro p sz md hmem
    unfold makeReadableForScan at hmem
    obtain ⟨o, ho, heq⟩ := List.mem_map.mp hmem
    cases o with
    | dir q =>
      exact absurd heq (by simp)
    | file q s2 m2 =>
      simp only [FsObj.file.injEq] at heq
      obtain ⟨rfl, rfl, rfl⟩ := heq
      simp only [SafeExtract] at ho
      have hev := file_mem_runEvents (fun _ => false) _ _ q s2 m2 ho
      obtain ⟨h, hh, he⟩ := List.mem_flatMap.mp hev
      obtain ⟨hq, hreg, hsz, hmd⟩ := (fileWrite_mem_entryEvents dst h q s2 m2).mp he
      refine ⟨h, hh, hreg, hq, hsz, ?_⟩
      rw [hmd, Nat.or_comm]
      exact Nat.and_self _

/-- C8 witness: a directory "d" plus a regular file "d/f.txt" of four
bytes with declared mode 0700 reproduce under "/r": the run succeeds,
"/r/d" exists in the final filesystem, and the file lands at
"/r/d/f.txt" with length 4 and permissions 0700 (already
owner-readable). -/
theorem claim8_roundtrip_witness :
    ((SafeExtract (fun _ => false)
        ⟨[⟨"d".data, tarTypeDir, 448, 0⟩, ⟨"d/f.txt".data, tarTypeReg, 448, 4⟩], false⟩
        "/r".data ["/r".data, "/".data]).res = Except.ok ()) ∧
      "/r/d".data ∈ (SafeExtract (fun _ => false)
        ⟨[⟨"d".data, tarTypeDir, 448, 0⟩, ⟨"d/f.txt".data, tarTypeReg, 448, 4⟩], false⟩
        "/r".data ["/r".data, "/".data]).fs ∧
      FsObj.file "/r/d/f.txt".data 4 448 ∈
        makeReadableForScan ((SafeExtract (fun _ => false)
          ⟨[⟨"d".data, tarTypeDir, 448, 0⟩, ⟨"d/f.txt".data, tarTypeReg, 448, 4⟩], false⟩
          "/r".data ["/r".data, "/".data]).created) := by
  have H := claim8_roundtrip
    ⟨[⟨"d".data, tarTypeDir, 448, 0⟩, ⟨"d/f.txt".data, tarTypeReg, 448, 4⟩], false⟩
    "/r".data ["/r".data, "/".data] (by decide) (by decide) rfl
  refine ⟨H.1, ?_, ?_⟩
  · exact H.2.1 ⟨"d".data, tarTypeDir, 448, 0⟩ (by decide) rfl "/r/d".data (by decide)
  · have := H.2.2.1 ⟨"d/f.txt".data, tarTypeReg, 448, 4⟩ (by decide) rfl
      "/r/d/f.txt".data (by decide)
    simpa using this
